import Mathlib

/-!
Verification of the batching engine and feed extractor of the
publitas-backend repository.

The embedding follows the TypeScript sources:
  * src/services/batch.service.ts  (BatchService)
  * src/feed-parser.ts             (getLocalName, isValidProduct, sax handlers)
  * src/config.ts                  (maxBatchSize, BYTES_PER_MB)

JavaScript strings are modelled as lists of Unicode characters
(`List Char`); Buffer.byteLength(s, 'utf8') is the sum of the UTF-8
sizes of the characters.  JSON.stringify of a Product is embedded as a
function producing the serialized character list, including JSON string
escaping of each character, so that byte-size accounting is exact.
-/

namespace PublitasBackend

/-- A JavaScript string, modelled as its list of Unicode characters. -/
abbrev Str := List Char

/-- Buffer.byteLength(s, 'utf8'): the UTF-8 byte length of a string. -/
def byteLen (s : Str) : Nat := (s.map Char.utf8Size).sum

/-- Lower-case hexadecimal digit for a value below 16, as produced by
JSON.stringify in \u00XX escapes. -/
def hexDigit (n : Nat) : Char := if n < 10 then Char.ofNat (48 + n) else Char.ofNat (87 + n)

/-- JSON.stringify escaping of one character occurring inside a string
literal: double quote and backslash get a backslash, the named control
characters get their two-character escapes, the remaining control
characters below U+0020 get \u00XX, and every other character is kept
verbatim. -/
def escapeChar (c : Char) : Str :=
  if c = '"' then ['\\', '"']
  else if c = '\\' then ['\\', '\\']
  else if c = Char.ofNat 8 then ['\\', 'b']
  else if c = Char.ofNat 9 then ['\\', 't']
  else if c = Char.ofNat 10 then ['\\', 'n']
  else if c = Char.ofNat 12 then ['\\', 'f']
  else if c = Char.ofNat 13 then ['\\', 'r']
  else if c.toNat < 32 then ['\\', 'u', '0', '0', hexDigit (c.toNat / 16), hexDigit (c.toNat % 16)]
  else [c]

/-- A JSON string literal: opening quote, escaped contents, closing quote. -/
def jsonQuote (s : Str) : Str := '"' :: (s.map escapeChar).flatten ++ ['"']

/-- A product record extracted from the feed (src/types/product.ts). -/
structure Product where
  id : Str
  title : Str
  description : Str
deriving DecidableEq, Repr

/-- JSON.stringify of a Product object with its three string fields, in
the field order id, title, description. -/
def serializeProduct (p : Product) : Str :=
  "\x7b\"id\":".data ++ jsonQuote p.id
    ++ ",\"title\":".data ++ jsonQuote p.title
    ++ ",\"description\":".data ++ jsonQuote p.description
    ++ "\x7d".data

/-- Comma-joining of the serialized elements of a JSON array, as done by
JSON.stringify on an array. -/
def joinComma : List Str → Str
  | [] => []
  | [x] => x
  | x :: y :: t => x ++ ',' :: joinComma (y :: t)

/-- JSON.stringify of an array of products: bracket, comma-joined
serialized elements, bracket. -/
def serializeBatch (batch : List Product) : Str :=
  '[' :: joinComma (batch.map serializeProduct) ++ [']']

/-- Buffer.byteLength('[]', 'utf8') = 2. -/
def EMPTY_JSON_ARRAY_SIZE : Nat := byteLen "[]".data

/-- Buffer.byteLength(',', 'utf8') = 1. -/
def COMMA_SEPARATOR_SIZE : Nat := byteLen ",".data

/-- src/config.ts: bytes per megabyte. -/
def BYTES_PER_MB : Nat := 1024 * 1024

/-- src/config.ts: default config.maxBatchSize = 5 MB. -/
def defaultMaxBatchSize : Nat := 5 * BYTES_PER_MB

/-- The mutable fields of a BatchService instance. -/
structure BatchState where
  batch : List Product
  currentBatchSize : Nat
deriving DecidableEq, Repr

/-- The state of a freshly constructed BatchService. -/
def initState : BatchState := ⟨[], EMPTY_JSON_ARRAY_SIZE⟩

/-- BatchService.calculateAdditionalSize: the extra bytes needed to add
an item, accounting for the comma separator between array elements. -/
def calculateAdditionalSize (s : BatchState) (itemByteSize : Nat) : Nat :=
  if s.batch.length = 0 then itemByteSize else itemByteSize + COMMA_SEPARATOR_SIZE

/-- BatchService.flush: if the batch is non-empty, hand
JSON.stringify(batch) to the external sink and reset the state.  The
second component lists the batches handed to the sink during the call
(the payload string for a batch b is serializeBatch b). -/
def flush (s : BatchState) : BatchState × List (List Product) :=
  if s.batch.length > 0 then (⟨[], EMPTY_JSON_ARRAY_SIZE⟩, [s.batch])
  else (s, [])

/-- The size-violation error thrown by addProduct, carrying the product
byte size and the configured ceiling. -/
inductive BatchError where
  | oversized (productByteSize maxBatchSize : Nat)
deriving DecidableEq, Repr

/-- BatchService.addProduct against ceiling maxBatchSize: guard rail,
then conditional auto-flush, then append and update the size.  The
second component of a successful result lists the batches handed to the
sink during the call. -/
def addProduct (maxBatchSize : Nat) (s : BatchState) (p : Product) :
    Except BatchError (BatchState × List (List Product)) :=
  let productByteSize := byteLen (serializeProduct p)
  if EMPTY_JSON_ARRAY_SIZE + productByteSize ≥ maxBatchSize then
    Except.error (BatchError.oversized productByteSize maxBatchSize)
  else
    let fr := if s.currentBatchSize + calculateAdditionalSize s productByteSize ≥ maxBatchSize
              then flush s else (s, [])
    Except.ok (⟨fr.1.batch ++ [p],
               fr.1.currentBatchSize + calculateAdditionalSize fr.1 productByteSize⟩, fr.2)

/-- One operation of a caller of a BatchService. -/
inductive Op where
  | add (p : Product)
  | flushOp
deriving DecidableEq, Repr

/-- One call on the BatchService: a failed addProduct (the thrown error)
leaves the state unchanged and hands nothing to the sink. -/
def runOp (c : Nat) (s : BatchState) : Op → BatchState × List (List Product)
  | Op.add p =>
      match addProduct c s p with
      | Except.ok r => r
      | Except.error _ => (s, [])
  | Op.flushOp => flush s

/-- A sequence of calls on the BatchService, collecting every batch
handed to the sink, in delivery order. -/
def run (c : Nat) (s : BatchState) : List Op → BatchState × List (List Product)
  | [] => (s, [])
  | op :: ops =>
      let r1 := runOp c s op
      let r2 := run c r1.1 ops
      (r2.1, r1.2 ++ r2.2)

/-- BatchService.flush run against an abstract sink whose call operation
may throw, following the statement order of the source: serialize, call
the sink, and only after the call returns assign batch = [] and reset
the size.  The result is (thrown error if any, the object state after
the call, the batches handed to the sink).  When the sink throws, the
two assignments after the call never execute, so the state is returned
unchanged. -/
def flushWithSink (sinkFails : List Product → Bool) (s : BatchState) :
    Option Unit × BatchState × List (List Product) :=
  if s.batch.length > 0 then
    if sinkFails s.batch then (some (), s, [s.batch])
    else (none, ⟨[], EMPTY_JSON_ARRAY_SIZE⟩, [s.batch])
  else (none, s, [])

/-! ## Feed parser (src/feed-parser.ts) -/

/-- The list produced by the JavaScript expression name.split(':'):
splitting at every colon, keeping empty segments. -/
def splitOnColon : Str → List Str
  | [] => [[]]
  | c :: cs =>
      if c = ':' then [] :: splitOnColon cs
      else
        match splitOnColon cs with
        | [] => [[c]]
        | g :: gs => (c :: g) :: gs

/-- getLocalName from src/feed-parser.ts:
name.includes(':') ? name.split(':')[1] : name. -/
def getLocalName (name : Str) : Str :=
  if ':' ∈ name then (splitOnColon name).getD 1 [] else name

/-- The characters removed by String.prototype.trim (the common ones:
space, tab, line feed, carriage return, vertical tab, form feed,
no-break space, BOM, line and paragraph separators). -/
def isJsSpace (c : Char) : Bool :=
  c = ' ' || c = '\t' || c = '\n' || c = '\r' || c = Char.ofNat 11 || c = Char.ofNat 12
    || c = Char.ofNat 0xA0 || c = Char.ofNat 0xFEFF || c = Char.ofNat 0x2028
    || c = Char.ofNat 0x2029

/-- String.prototype.trim: strip leading and trailing whitespace. -/
def jsTrim (s : Str) : Str :=
  ((s.dropWhile isJsSpace).reverse.dropWhile isJsSpace).reverse

/-- An in-progress product: Partial Product from the parser, with
each field either absent (undefined) or a string. -/
structure PartialProduct where
  id : Option Str
  title : Option Str
  description : Option Str
deriving DecidableEq, Repr

/-- The empty object assigned to currentProduct. -/
def emptyPartial : PartialProduct := ⟨none, none, none⟩

/-- The keys of FIELD_MAPPINGS in src/feed-parser.ts. -/
def FIELD_NAMES : List Str := ["id".data, "title".data, "description".data]

/-- currentProduct[FIELD_MAPPINGS[localName]] = value, for a local name
among the recognized fields; any other name leaves the object alone. -/
def setField (pp : PartialProduct) (name : Str) (v : Str) : PartialProduct :=
  if name = "id".data then { pp with id := some v }
  else if name = "title".data then { pp with title := some v }
  else if name = "description".data then { pp with description := some v }
  else pp

/-- Field lookup on a partial product by local field name. -/
def fieldOf (pp : PartialProduct) (name : Str) : Option Str :=
  if name = "id".data then pp.id
  else if name = "title".data then pp.title
  else if name = "description".data then pp.description
  else none

/-- isValidProduct from src/feed-parser.ts:
!!p.id && p.title !== undefined && p.description !== undefined. -/
def isValidProduct (pp : PartialProduct) : Bool :=
  (match pp.id with
   | none => false
   | some v => !v.isEmpty) && pp.title.isSome && pp.description.isSome

/-- The cast \x7b ...currentProduct \x7d as Product, defined on partial
products that passed validation. -/
def toProduct (pp : PartialProduct) : Product :=
  ⟨pp.id.getD [], pp.title.getD [], pp.description.getD []⟩

/-- The closure state of the parseProductFeed event handlers. -/
structure ParserState where
  currentProduct : PartialProduct
  currentTag : Str
  currentText : Str
  insideItem : Bool
deriving DecidableEq, Repr

/-- The handler state before any event. -/
def initParserState : ParserState := ⟨emptyPartial, [], [], false⟩

/-- The opentag handler: entering an item resets the product; inside an
item the current tag is recorded and the text accumulator cleared. -/
def onOpentag (s : ParserState) (name : Str) : ParserState :=
  let tagName := getLocalName name
  let s1 := if tagName = "item".data then
      { s with insideItem := true, currentProduct := emptyPartial }
    else s
  if s1.insideItem then { s1 with currentTag := tagName, currentText := [] } else s1

/-- The text handler: while a tag is open inside an item, append the
chunk verbatim to the text accumulator. -/
def onText (s : ParserState) (chunk : Str) : ParserState :=
  if s.insideItem && !s.currentTag.isEmpty then
    { s with currentText := s.currentText ++ chunk }
  else s

/-- The cdata handler: treated the same as regular text. -/
def onCdata (s : ParserState) (chunk : Str) : ParserState :=
  if s.insideItem && !s.currentTag.isEmpty then
    { s with currentText := s.currentText ++ chunk }
  else s

/-- The body of the closetag handler, parameterized by the already
resolved local name (the handler's localName const): commit the trimmed
accumulated text to a recognized field; on closing an item, emit the
product when valid (the second component lists the products handed to
batchService.addProduct); finally clear the current tag and text. -/
def closeWithLocal (s : ParserState) (localName : Str) : ParserState × List Product :=
  let s1 := if s.insideItem ∧ localName ∈ FIELD_NAMES then
      { s with currentProduct := setField s.currentProduct localName (jsTrim s.currentText) }
    else s
  let r := if localName = "item".data then
      let s2 := { s1 with insideItem := false }
      if isValidProduct s2.currentProduct then
        ({ s2 with currentProduct := emptyPartial }, [toProduct s2.currentProduct])
      else ({ s2 with currentProduct := emptyPartial }, [])
    else (s1, [])
  ({ r.1 with currentTag := [], currentText := [] }, r.2)

/-- The closetag handler: resolve the local name, then run the body. -/
def onClosetag (s : ParserState) (tagName : Str) : ParserState × List Product :=
  closeWithLocal s (getLocalName tagName)

/-- A text or CDATA chunk: the flag is true for CDATA. -/
def applyChunk (s : ParserState) (c : Bool × Str) : ParserState :=
  if c.1 then onCdata s c.2 else onText s c.2

/-- A sequence of text/CDATA chunks arriving in order. -/
def applyChunks (s : ParserState) : List (Bool × Str) → ParserState
  | [] => s
  | c :: rest => applyChunks (applyChunk s c) rest

/-! ## Spec-side definition for the local-name refinement claim -/

/-- Everything after the first colon of a string (the whole string when
it has no colon). -/
def dropThroughFirstColon : Str → Str
  | [] => []
  | c :: cs => if c = ':' then cs else dropThroughFirstColon cs

/-- Follows the spec's words: strip any namespace qualifier by taking
the substring after the first colon if present, the full name
otherwise.  To be compared with getLocalName from the source. -/
def getLocalNameSpec (name : Str) : Str :=
  if ':' ∈ name then dropThroughFirstColon name else name

/-! ## Helper lemmas on byte sizes and serialization -/

theorem byteLen_append (a b : Str) : byteLen (a ++ b) = byteLen a + byteLen b := by
  simp [byteLen]

theorem joinComma_snoc (l : List Str) (x : Str) :
    joinComma (l ++ [x]) = if l = [] then x else joinComma l ++ ',' :: x := by
  induction l with
  | nil => simp [joinComma]
  | cons a t ih =>
    cases t with
    | nil => simp [joinComma]
    | cons b t2 =>
      have h2 : ∀ y ys, joinComma (a :: y :: ys) = a ++ ',' :: joinComma (y :: ys) :=
        fun y ys => rfl
      have h3 : (b :: t2) ++ [x] = b :: (t2 ++ [x]) := rfl
      show joinComma (a :: ((b :: t2) ++ [x])) = _
      rw [h3, h2, ← h3, ih]
      rw [if_neg (by simp), if_neg (by simp), h2]
      simp [List.append_assoc]

theorem byteLen_serializeBatch_snoc (b : List Product) (p : Product) :
    byteLen (serializeBatch (b ++ [p])) =
      byteLen (serializeBatch b) + byteLen (serializeProduct p)
        + (if b = [] then 0 else COMMA_SEPARATOR_SIZE) := by
  unfold serializeBatch
  rw [List.map_append, List.map_cons, List.map_nil, joinComma_snoc]
  by_cases hb : b = []
  · subst hb
    simp [byteLen, joinComma]
    omega
  · rw [if_neg (by simpa using hb), if_neg hb]
    simp [byteLen, COMMA_SEPARATOR_SIZE]
    omega

/-- The two pieces of state the batching algorithm keeps in sync: the
tracked size is the exact serialized size of the pending batch, and a
non-empty pending batch is tracked strictly below the ceiling. -/
def SizeInv (c : Nat) (s : BatchState) : Prop :=
  s.currentBatchSize = byteLen (serializeBatch s.batch) ∧
  (s.batch ≠ [] → s.currentBatchSize < c)

theorem sizeInv_init (c : Nat) : SizeInv c initState := by
  constructor
  · decide
  · intro h
    exact absurd rfl h

theorem flush_preserves (c : Nat) (s : BatchState) (h : SizeInv c s) :
    SizeInv c (flush s).1 ∧ ∀ b ∈ (flush s).2, byteLen (serializeBatch b) < c := by
  unfold flush
  split
  · refine ⟨sizeInv_init c, ?_⟩
    intro b hb
    simp only [List.mem_singleton] at hb
    subst hb
    rw [← h.1]
    exact h.2 (by rename_i hl; exact List.ne_nil_of_length_pos hl)
  · exact ⟨h, by intro b hb; simp at hb⟩

theorem append_keeps_sizeInv (c : Nat) (s1 : BatchState) (p : Product)
    (h1 : SizeInv c s1)
    (hlt : s1.currentBatchSize
        + calculateAdditionalSize s1 (byteLen (serializeProduct p)) < c) :
    SizeInv c ⟨s1.batch ++ [p],
      s1.currentBatchSize + calculateAdditionalSize s1 (byteLen (serializeProduct p))⟩ := by
  constructor
  · show s1.currentBatchSize + calculateAdditionalSize s1 (byteLen (serializeProduct p))
      = byteLen (serializeBatch (s1.batch ++ [p]))
    rw [byteLen_serializeBatch_snoc, ← h1.1]
    unfold calculateAdditionalSize
    by_cases hb : s1.batch = []
    · rw [if_pos (by simp [hb]), if_pos hb]
      omega
    · rw [if_neg (by simpa using hb), if_neg hb]
      omega
  · intro _
    exact hlt

theorem flush_of_ne_nil (s : BatchState) (h : s.batch ≠ []) :
    flush s = (initState, [s.batch]) := by
  unfold flush
  rw [if_pos (List.length_pos.mpr h)]
  rfl

theorem flush_of_nil (s : BatchState) (h : s.batch = []) : flush s = (s, []) := by
  unfold flush
  rw [if_neg (by simp [h])]

theorem addProduct_eq (c : Nat) (s : BatchState) (p : Product) :
    addProduct c s p =
      if EMPTY_JSON_ARRAY_SIZE + byteLen (serializeProduct p) ≥ c then
        Except.error (BatchError.oversized (byteLen (serializeProduct p)) c)
      else
        Except.ok
          ((⟨(if s.currentBatchSize
                  + calculateAdditionalSize s (byteLen (serializeProduct p)) ≥ c
                then flush s else (s, [])).1.batch ++ [p],
            (if s.currentBatchSize
                  + calculateAdditionalSize s (byteLen (serializeProduct p)) ≥ c
                then flush s else (s, [])).1.currentBatchSize
              + calculateAdditionalSize
                  (if s.currentBatchSize
                        + calculateAdditionalSize s (byteLen (serializeProduct p)) ≥ c
                    then flush s else (s, [])).1
                  (byteLen (serializeProduct p))⟩ : BatchState),
           (if s.currentBatchSize
                + calculateAdditionalSize s (byteLen (serializeProduct p)) ≥ c
              then flush s else (s, [])).2) := rfl

theorem runOp_add_guard (c : Nat) (s : BatchState) (p : Product)
    (h : EMPTY_JSON_ARRAY_SIZE + byteLen (serializeProduct p) ≥ c) :
    runOp c s (Op.add p) = (s, []) := by
  show (match addProduct c s p with
    | Except.ok r => r | Except.error _ => (s, [])) = (s, [])
  rw [addProduct_eq, if_pos h]

theorem runOp_add_ok (c : Nat) (s : BatchState) (p : Product)
    (h : ¬ EMPTY_JSON_ARRAY_SIZE + byteLen (serializeProduct p) ≥ c) :
    runOp c s (Op.add p) =
      ((⟨(if s.currentBatchSize + calculateAdditionalSize s (byteLen (serializeProduct p)) ≥ c
            then flush s else (s, [])).1.batch ++ [p],
        (if s.currentBatchSize + calculateAdditionalSize s (byteLen (serializeProduct p)) ≥ c
            then flush s else (s, [])).1.currentBatchSize
          + calculateAdditionalSize
              (if s.currentBatchSize + calculateAdditionalSize s (byteLen (serializeProduct p)) ≥ c
                then flush s else (s, [])).1 (byteLen (serializeProduct p))⟩ : BatchState),
       (if s.currentBatchSize + calculateAdditionalSize s (byteLen (serializeProduct p)) ≥ c
            then flush s else (s, [])).2) := by
  show (match addProduct c s p with
    | Except.ok r => r | Except.error _ => (s, [])) = _
  rw [addProduct_eq, if_neg h]

theorem runOp_preserves (c : Nat) (s : BatchState) (op : Op) (h : SizeInv c s) :
    SizeInv c (runOp c s op).1 ∧ ∀ b ∈ (runOp c s op).2, byteLen (serializeBatch b) < c := by
  cases op with
  | flushOp => exact flush_preserves c s h
  | add p =>
    by_cases hguard : EMPTY_JSON_ARRAY_SIZE + byteLen (serializeProduct p) ≥ c
    · rw [runOp_add_guard c s p hguard]
      exact ⟨h, by intro b hb; simp at hb⟩
    · rw [runOp_add_ok c s p hguard]
      by_cases htrig : s.currentBatchSize
          + calculateAdditionalSize s (byteLen (serializeProduct p)) ≥ c
      · simp only [if_pos htrig]
        by_cases hb : s.batch = []
        · -- with an empty batch the trigger would contradict the guard rail
          exfalso
          have h2 : s.currentBatchSize = byteLen (serializeBatch []) := by rw [h.1, hb]
          have h3 : calculateAdditionalSize s (byteLen (serializeProduct p))
              = byteLen (serializeProduct p) := by
            unfold calculateAdditionalSize
            rw [if_pos (by simp [hb])]
          rw [h2, h3] at htrig
          have h4 : byteLen (serializeBatch ([] : List Product)) = EMPTY_JSON_ARRAY_SIZE := by
            decide
          omega
        · rw [flush_of_ne_nil s hb]
          refine ⟨append_keeps_sizeInv c initState p (sizeInv_init c) ?_, ?_⟩
          · have h5 : calculateAdditionalSize initState (byteLen (serializeProduct p))
                = byteLen (serializeProduct p) := rfl
            rw [h5]
            show EMPTY_JSON_ARRAY_SIZE + byteLen (serializeProduct p) < c
            omega
          · intro b hb2
            simp only [List.mem_singleton] at hb2
            subst hb2
            rw [← h.1]
            exact h.2 hb
      · simp only [if_neg htrig]
        exact ⟨append_keeps_sizeInv c s p h (by omega), by intro b hb; simp at hb⟩

theorem run_preserves (c : Nat) (s : BatchState) (ops : List Op) (h : SizeInv c s) :
    SizeInv c (run c s ops).1 ∧ ∀ b ∈ (run c s ops).2, byteLen (serializeBatch b) < c := by
  induction ops generalizing s with
  | nil => exact ⟨h, by intro b hb; simp [run] at hb⟩
  | cons op ops ih =>
    have h1 := runOp_preserves c s op h
    have h2 := ih (runOp c s op).1 h1.1
    refine ⟨h2.1, ?_⟩
    intro b hb
    simp only [run, List.mem_append] at hb
    rcases hb with hb | hb
    · exact h1.2 b hb
    · exact h2.2 b hb

theorem runOp_keeps_lt (c : Nat) (s : BatchState) (op : Op) (h : SizeInv c s)
    (hlt : s.currentBatchSize < c) (hc : EMPTY_JSON_ARRAY_SIZE < c) :
    (runOp c s op).1.currentBatchSize < c := by
  cases op with
  | flushOp =>
    have he : runOp c s Op.flushOp = flush s := rfl
    rw [he]
    by_cases hb : s.batch = []
    · rw [flush_of_nil s hb]
      exact hlt
    · rw [flush_of_ne_nil s hb]
      exact hc
  | add p =>
    by_cases hguard : EMPTY_JSON_ARRAY_SIZE + byteLen (serializeProduct p) ≥ c
    · rw [runOp_add_guard c s p hguard]
      exact hlt
    · have hb : (runOp c s (Op.add p)).1.batch ≠ [] := by
        rw [runOp_add_ok c s p hguard]
        simp
      exact (runOp_preserves c s (Op.add p) h).1.2 hb

theorem run_keeps_lt (c : Nat) (s : BatchState) (ops : List Op) (h : SizeInv c s)
    (hlt : s.currentBatchSize < c) (hc : EMPTY_JSON_ARRAY_SIZE < c) :
    (run c s ops).1.currentBatchSize < c := by
  induction ops generalizing s with
  | nil => exact hlt
  | cons op ops ih =>
    exact ih (runOp c s op).1 (runOp_preserves c s op h).1 (runOp_keeps_lt c s op h hlt hc)

theorem runOp_add_flatten (c : Nat) (s : BatchState) (p : Product)
    (h : ¬ EMPTY_JSON_ARRAY_SIZE + byteLen (serializeProduct p) ≥ c) :
    (runOp c s (Op.add p)).2.flatten ++ (runOp c s (Op.add p)).1.batch = s.batch ++ [p] := by
  rw [runOp_add_ok c s p h]
  by_cases htrig : s.currentBatchSize
      + calculateAdditionalSize s (byteLen (serializeProduct p)) ≥ c
  · simp only [if_pos htrig]
    by_cases hb : s.batch = []
    · rw [flush_of_nil s hb]
      simp
    · rw [flush_of_ne_nil s hb]
      simp [initState]
  · simp only [if_neg htrig]
    simp

theorem run_adds_flush (c : Nat) (s : BatchState) (ps : List Product)
    (h : ∀ p ∈ ps, ¬ EMPTY_JSON_ARRAY_SIZE + byteLen (serializeProduct p) ≥ c) :
    ((run c s (ps.map Op.add ++ [Op.flushOp])).2).flatten = s.batch ++ ps := by
  induction ps generalizing s with
  | nil =>
    simp only [List.map_nil, List.nil_append]
    have he : run c s [Op.flushOp] = ((flush s).1, (flush s).2 ++ []) := rfl
    rw [he]
    by_cases hb : s.batch = []
    · rw [flush_of_nil s hb]
      simp [hb]
    · rw [flush_of_ne_nil s hb]
      simp
  | cons p ps ih =>
    have hp := h p (List.mem_cons_self p ps)
    have hrun : run c s ((p :: ps).map Op.add ++ [Op.flushOp])
        = ((run c (runOp c s (Op.add p)).1 (ps.map Op.add ++ [Op.flushOp])).1,
           (runOp c s (Op.add p)).2
             ++ (run c (runOp c s (Op.add p)).1 (ps.map Op.add ++ [Op.flushOp])).2) := rfl
    rw [hrun]
    simp only [List.flatten_append]
    rw [ih _ (fun q hq => h q (List.mem_cons_of_mem p hq)),
      ← List.append_assoc, runOp_add_flatten c s p hp]
    simp

/-! ## Claim theorems for the Batch Accumulator -/

/-- C1: for every sequence of addProduct and flush calls on a freshly
constructed BatchService (each addProduct either succeeding or raising
the oversized-record error), every payload string handed to the
external sink has UTF-8 byte length strictly less than the configured
ceiling. -/
theorem sink_payload_below_ceiling (c : Nat) (ops : List Op) :
    ∀ b ∈ (run c initState ops).2, byteLen (serializeBatch b) < c :=
  fun b hb => (run_preserves c initState ops (sizeInv_init c)).2 b hb

theorem sink_payload_below_ceiling_witness :
    byteLen (serializeBatch [(⟨"1".data, "t".data, "d".data⟩ : Product)]) < 100 :=
  sink_payload_below_ceiling 100
    [Op.add ⟨"1".data, "t".data, "d".data⟩, Op.flushOp]
    [⟨"1".data, "t".data, "d".data⟩] (by decide)

/-- C2: for every sequence of successfully added records followed by a
final flush, concatenating the record lists of the delivered payloads
in delivery order yields exactly the records in the order addProduct
was called: none lost, none duplicated, none reordered. -/
theorem delivered_records_complete_in_order (c : Nat) (ps : List Product)
    (h : ∀ p ∈ ps, EMPTY_JSON_ARRAY_SIZE + byteLen (serializeProduct p) < c) :
    ((run c initState (ps.map Op.add ++ [Op.flushOp])).2).flatten = ps := by
  have hr := run_adds_flush c initState ps (fun p hp => by have := h p hp; omega)
  exact hr

theorem delivered_records_complete_in_order_witness :
    ((run 100 initState
        ([(⟨"1".data, "t".data, "d".data⟩ : Product),
          ⟨"2".data, "u".data, "e".data⟩].map Op.add ++ [Op.flushOp])).2).flatten
      = [(⟨"1".data, "t".data, "d".data⟩ : Product), ⟨"2".data, "u".data, "e".data⟩] :=
  delivered_records_complete_in_order 100
    [⟨"1".data, "t".data, "d".data⟩, ⟨"2".data, "u".data, "e".data⟩] (by decide)

/-- C3: the running size counter is an exact incremental account of the
serialized batch: it starts at the 2-byte empty-array cost, appending a
record adds its JSON byte length plus one separator byte exactly when
the batch was already non-empty, and after every operation sequence the
counter equals the byte length of the JSON-array serialization of the
pending batch. -/
theorem size_counter_exact (c : Nat) :
    initState.currentBatchSize = EMPTY_JSON_ARRAY_SIZE ∧
    (∀ (s : BatchState) (n : Nat), calculateAdditionalSize s n
        = n + (if s.batch.length = 0 then 0 else COMMA_SEPARATOR_SIZE)) ∧
    ∀ ops : List Op, (run c initState ops).1.currentBatchSize
        = byteLen (serializeBatch (run c initState ops).1.batch) := by
  refine ⟨rfl, ?_, ?_⟩
  · intro s n
    unfold calculateAdditionalSize
    by_cases hb : s.batch.length = 0
    · rw [if_pos hb, if_pos hb]
      omega
    · rw [if_neg hb, if_neg hb]
  · intro ops
    exact (run_preserves c initState ops (sizeInv_init c)).1.1

/-- C4: a record whose JSON byte length plus the empty-array cost
reaches the ceiling makes addProduct raise the size-violation error;
the pending batch and running total are unchanged, the record is never
appended, and no sink call occurs. -/
theorem oversized_add_rejected (c : Nat) (s : BatchState) (p : Product)
    (h : EMPTY_JSON_ARRAY_SIZE + byteLen (serializeProduct p) ≥ c) :
    addProduct c s p
        = Except.error (BatchError.oversized (byteLen (serializeProduct p)) c) ∧
    runOp c s (Op.add p) = (s, []) :=
  ⟨by rw [addProduct_eq, if_pos h], runOp_add_guard c s p h⟩

theorem oversized_add_rejected_witness :
    addProduct 10 initState ⟨"1".data, "t".data, "d".data⟩
        = Except.error (BatchError.oversized
            (byteLen (serializeProduct ⟨"1".data, "t".data, "d".data⟩)) 10) ∧
    runOp 10 initState (Op.add ⟨"1".data, "t".data, "d".data⟩) = (initState, []) :=
  oversized_add_rejected 10 initState ⟨"1".data, "t".data, "d".data⟩ (by decide)

/-- C9: flushing an empty batch produces no sink call and leaves the
state unchanged; consequently a second consecutive flush is always a
no-op. -/
theorem empty_flush_noop (s : BatchState) :
    (s.batch = [] → flush s = (s, [])) ∧
    flush (flush s).1 = ((flush s).1, []) := by
  refine ⟨flush_of_nil s, ?_⟩
  have hb : (flush s).1.batch = [] := by
    by_cases h : s.batch = []
    · rw [flush_of_nil s h]
      exact h
    · rw [flush_of_ne_nil s h]
      rfl
  exact flush_of_nil _ hb

theorem empty_flush_noop_witness : flush initState = (initState, []) :=
  (empty_flush_noop initState).1 rfl

/-- C10: the running size counter stays strictly below the configured
ceiling at every quiescent point: after construction and after every
sequence of (successful or failing) addProduct and flush calls. -/
theorem tracked_size_always_below_ceiling (c : Nat)
    (hc : EMPTY_JSON_ARRAY_SIZE < c) (ops : List Op) :
    (run c initState ops).1.currentBatchSize < c :=
  run_keeps_lt c initState ops (sizeInv_init c) hc hc

theorem tracked_size_always_below_ceiling_witness :
    (run defaultMaxBatchSize initState [Op.flushOp]).1.currentBatchSize
      < defaultMaxBatchSize :=
  tracked_size_always_below_ceiling defaultMaxBatchSize (by decide) [Op.flushOp]

/-- C5 counterexample: flush invokes the sink while the pending batch is
still populated; with a failing sink the batch afterwards still contains
the payload's record, so the batch was not cleared before the sink was
invoked. -/
theorem flush_state_at_sink_failure_cex :
    (flushWithSink (fun _ => true)
        ⟨[⟨"1".data, "t".data, "d".data⟩],
          byteLen (serializeBatch [⟨"1".data, "t".data, "d".data⟩])⟩).2.2
      = [[(⟨"1".data, "t".data, "d".data⟩ : Product)]] ∧
    (flushWithSink (fun _ => true)
        ⟨[⟨"1".data, "t".data, "d".data⟩],
          byteLen (serializeBatch [⟨"1".data, "t".data, "d".data⟩])⟩).1 = some () ∧
    (flushWithSink (fun _ => true)
        ⟨[⟨"1".data, "t".data, "d".data⟩],
          byteLen (serializeBatch [⟨"1".data, "t".data, "d".data⟩])⟩).2.1.batch
      = [(⟨"1".data, "t".data, "d".data⟩ : Product)] :=
  ⟨rfl, rfl, rfl⟩

/-- C5 amended: flush hands the payload to the sink while the pending
batch still contains its records; the batch and the running total are
reset only after the sink call returns, so when the sink fails the
state is unchanged and still holds the records, and only on sink
success is the batch cleared. -/
theorem flush_clears_only_after_sink_success (sf : List Product → Bool) (s : BatchState)
    (hne : s.batch ≠ []) :
    (sf s.batch = true → flushWithSink sf s = (some (), s, [s.batch])) ∧
    (sf s.batch = false →
      flushWithSink sf s = (none, ⟨[], EMPTY_JSON_ARRAY_SIZE⟩, [s.batch])) := by
  unfold flushWithSink
  rw [if_pos (List.length_pos.mpr hne)]
  constructor
  · intro h
    rw [if_pos h]
  · intro h
    rw [if_neg (by simp [h])]

theorem flush_clears_only_after_sink_success_witness :
    flushWithSink (fun _ => true) ⟨[⟨"1".data, "t".data, "d".data⟩], 42⟩
      = (some (), ⟨[⟨"1".data, "t".data, "d".data⟩], 42⟩,
         [[(⟨"1".data, "t".data, "d".data⟩ : Product)]]) :=
  (flush_clears_only_after_sink_success (fun _ => true)
    ⟨[⟨"1".data, "t".data, "d".data⟩], 42⟩ (by decide)).1 rfl

/-! ## Lemmas on colon splitting for the local-name claim -/

theorem splitOnColon_ne_nil (s : Str) : splitOnColon s ≠ [] := by
  cases s with
  | nil => simp [splitOnColon]
  | cons c cs =>
    unfold splitOnColon
    split
    · simp
    · cases h2 : splitOnColon cs with
      | nil => simp
      | cons g gs => simp

theorem splitOnColon_of_not_mem (s : Str) (h : ':' ∉ s) : splitOnColon s = [s] := by
  induction s with
  | nil => rfl
  | cons c cs ih =>
    have hc : ¬ c = ':' := fun e => h (by simp [e])
    have hcs : ':' ∉ cs := fun m => h (List.mem_cons_of_mem _ m)
    unfold splitOnColon
    rw [if_neg hc, ih hcs]

theorem splitOnColon_append (pre rest : Str) (h : ':' ∉ pre) :
    splitOnColon (pre ++ ':' :: rest) = pre :: splitOnColon rest := by
  induction pre with
  | nil =>
    show splitOnColon (':' :: rest) = [] :: splitOnColon rest
    simp [splitOnColon]
  | cons c cs ih =>
    have hc : ¬ c = ':' := fun e => h (by simp [e])
    have hcs : ':' ∉ cs := fun m => h (List.mem_cons_of_mem _ m)
    show splitOnColon (c :: (cs ++ ':' :: rest)) = (c :: cs) :: splitOnColon rest
    simp only [splitOnColon]
    rw [if_neg hc, ih hcs]

theorem dropThroughFirstColon_append (pre rest : Str) (h : ':' ∉ pre) :
    dropThroughFirstColon (pre ++ ':' :: rest) = rest := by
  induction pre with
  | nil =>
    show dropThroughFirstColon (':' :: rest) = rest
    unfold dropThroughFirstColon
    rw [if_pos rfl]
  | cons c cs ih =>
    have hc : ¬ c = ':' := fun e => h (by simp [e])
    have hcs : ':' ∉ cs := fun m => h (List.mem_cons_of_mem _ m)
    show dropThroughFirstColon (c :: (cs ++ ':' :: rest)) = rest
    unfold dropThroughFirstColon
    rw [if_neg hc]
    exact ih hcs

theorem exists_first_colon (s : Str) (h : ':' ∈ s) :
    ∃ pre rest, s = pre ++ ':' :: rest ∧ ':' ∉ pre := by
  induction s with
  | nil => cases h
  | cons c cs ih =>
    by_cases hc : c = ':'
    · exact ⟨[], cs, by rw [hc]; rfl, by simp⟩
    · have hm : ':' ∈ cs := by
        rcases List.mem_cons.mp h with h1 | h1
        · exact absurd h1.symm hc
        · exact h1
      obtain ⟨pre, rest, he, hn⟩ := ih hm
      refine ⟨c :: pre, rest, by rw [he]; rfl, ?_⟩
      intro hmem
      rcases List.mem_cons.mp hmem with h1 | h1
      · exact hc h1.symm
      · exact hn h1

/-- C7 counterexample: on a name with two colons the source takes the
segment between the first and second colon, not the substring after the
first colon. -/
theorem local_name_after_first_colon_cex :
    getLocalName "a:b:c".data = "b".data ∧
    getLocalNameSpec "a:b:c".data = "b:c".data ∧
    getLocalName "a:b:c".data ≠ getLocalNameSpec "a:b:c".data :=
  ⟨by decide, by decide, by decide⟩

/-- C7 amended: the local name is the second colon-separated segment of
the name when it contains a colon (the whole name otherwise); this
agrees with taking the substring after the first colon exactly on names
with at most one colon, and in particular g:id and id resolve to the
same field. -/
theorem local_name_amended (name : Str) (h : (splitOnColon name).length ≤ 2) :
    getLocalName name = getLocalNameSpec name ∧
    getLocalName "g:id".data = "id".data ∧ getLocalName "id".data = "id".data := by
  refine ⟨?_, by decide, by decide⟩
  by_cases hm : ':' ∈ name
  · obtain ⟨pre, rest, he, hn⟩ := exists_first_colon name hm
    subst he
    have hmm : ':' ∈ pre ++ ':' :: rest := by simp
    unfold getLocalName getLocalNameSpec
    rw [if_pos hmm, if_pos hmm, splitOnColon_append pre rest hn,
        dropThroughFirstColon_append pre rest hn]
    have hr : ':' ∉ rest := by
      intro hrr
      obtain ⟨pre2, rest2, he2, hn2⟩ := exists_first_colon rest hrr
      rw [splitOnColon_append pre rest hn, he2,
          splitOnColon_append pre2 rest2 hn2] at h
      have hlen : 0 < (splitOnColon rest2).length :=
        List.length_pos.mpr (splitOnColon_ne_nil rest2)
      simp only [List.length_cons] at h
      omega
    rw [splitOnColon_of_not_mem rest hr]
    rfl
  · unfold getLocalName getLocalNameSpec
    rw [if_neg hm, if_neg hm]

theorem local_name_amended_witness :
    getLocalName "g:id".data = getLocalNameSpec "g:id".data ∧
    getLocalName "g:id".data = "id".data ∧ getLocalName "id".data = "id".data :=
  local_name_amended "g:id".data (by decide)

/-! ## Lemmas on the parser event handlers -/

theorem isValidProduct_iff (pp : PartialProduct) :
    isValidProduct pp = true ↔
      (∃ v, pp.id = some v ∧ v ≠ []) ∧
        pp.title.isSome = true ∧ pp.description.isSome = true := by
  unfold isValidProduct
  cases hid : pp.id with
  | none => simp
  | some v =>
    simp only [Bool.and_eq_true, Bool.not_eq_true', List.isEmpty_eq_false,
      Option.some.injEq]
    constructor
    · rintro ⟨⟨h1, h2⟩, h3⟩
      exact ⟨⟨v, rfl, h1⟩, h2, h3⟩
    · rintro ⟨⟨w, hw, hne⟩, h2, h3⟩
      cases hw
      exact ⟨⟨hne, h2⟩, h3⟩

theorem closeWithLocal_item (s : ParserState) :
    closeWithLocal s "item".data
      = (⟨emptyPartial, [], [], false⟩,
         if isValidProduct s.currentProduct then [toProduct s.currentProduct] else []) := by
  obtain ⟨pp, tag, txt, ins⟩ := s
  have h1 : (ins = true ∧ ("item".data ∈ FIELD_NAMES)) = False :=
    eq_false (fun hcon => absurd hcon.2 (by decide))
  simp only [closeWithLocal, h1, if_false]
  by_cases hv : isValidProduct pp
  · simp [hv]
  · simp [hv]

theorem onClosetag_item (s : ParserState) (name : Str)
    (hname : getLocalName name = "item".data) :
    onClosetag s name
      = (⟨emptyPartial, [], [], false⟩,
         if isValidProduct s.currentProduct then [toProduct s.currentProduct] else []) := by
  have he : onClosetag s name = closeWithLocal s (getLocalName name) := rfl
  rw [he, hname, closeWithLocal_item]

/-- C6: at the close of an item element, the extracted record is handed
to the BatchService exactly when the in-progress product's id is
present and non-empty and its title and description are present
(possibly empty); otherwise the item is discarded. -/
theorem item_close_emits_iff_complete (s : ParserState) (name : Str)
    (hname : getLocalName name = "item".data) :
    ((onClosetag s name).2
        = if isValidProduct s.currentProduct then [toProduct s.currentProduct] else []) ∧
    ((onClosetag s name).2 ≠ [] ↔
      (∃ v, s.currentProduct.id = some v ∧ v ≠ []) ∧
        s.currentProduct.title.isSome = true
          ∧ s.currentProduct.description.isSome = true) := by
  have h2 : (onClosetag s name).2
      = if isValidProduct s.currentProduct then [toProduct s.currentProduct] else [] := by
    rw [onClosetag_item s name hname]
  refine ⟨h2, ?_⟩
  rw [h2, ← isValidProduct_iff]
  constructor
  · intro hne
    by_cases hv : isValidProduct s.currentProduct
    · exact hv
    · rw [if_neg hv] at hne
      exact absurd rfl hne
  · intro hv
    rw [if_pos hv]
    simp

theorem item_close_emits_iff_complete_witness :
    (onClosetag ⟨⟨some "1".data, some [], some []⟩, [], [], true⟩ "item".data).2 ≠ [] :=
  (item_close_emits_iff_complete ⟨⟨some "1".data, some [], some []⟩, [], [], true⟩
    "item".data (by decide)).2.mpr ⟨⟨"1".data, rfl, by decide⟩, rfl, rfl⟩

theorem applyChunks_state (s : ParserState) (chunks : List (Bool × Str))
    (hin : s.insideItem = true) (htag : s.currentTag ≠ []) :
    applyChunks s chunks
      = { s with currentText := s.currentText ++ (chunks.map Prod.snd).flatten } := by
  induction chunks generalizing s with
  | nil =>
    obtain ⟨pp, tag, txt, ins⟩ := s
    simp [applyChunks]
  | cons ch rest ih =>
    have hcond : (s.insideItem && !s.currentTag.isEmpty) = true := by
      rw [hin]
      simp [List.isEmpty_eq_false.mpr htag]
    have hstep : applyChunk s ch = { s with currentText := s.currentText ++ ch.2 } := by
      unfold applyChunk onCdata onText
      cases hb : ch.1
      · simp only [Bool.false_eq_true, if_false]
        rw [if_pos hcond]
      · simp only [if_true]
        rw [if_pos hcond]
    have he : applyChunks s (ch :: rest) = applyChunks (applyChunk s ch) rest := rfl
    rw [he, hstep, ih { s with currentText := s.currentText ++ ch.2 } hin htag]
    obtain ⟨pp, tag, txt, ins⟩ := s
    simp [List.append_assoc]

theorem fieldOf_setField (pp : PartialProduct) (n v : Str) (hn : n ∈ FIELD_NAMES) :
    fieldOf (setField pp n v) n = some v := by
  have hm : n = "id".data ∨ n = "title".data ∨ n = "description".data := by
    simpa [FIELD_NAMES] using hn
  rcases hm with h | h | h <;> subst h
  · unfold setField fieldOf
    rw [if_pos rfl, if_pos rfl]
  · unfold setField fieldOf
    rw [if_neg (by decide), if_pos rfl, if_neg (by decide), if_pos rfl]
  · unfold setField fieldOf
    rw [if_neg (by decide), if_neg (by decide), if_pos rfl,
        if_neg (by decide), if_neg (by decide), if_pos rfl]

theorem closeWithLocal_commit (s : ParserState) (ln : Str)
    (hin : s.insideItem = true) (hfield : ln ∈ FIELD_NAMES) :
    closeWithLocal s ln
      = (⟨setField s.currentProduct ln (jsTrim s.currentText), [], [], s.insideItem⟩, []) := by
  obtain ⟨pp, tag, txt, ins⟩ := s
  have h1 : (ins = true ∧ ln ∈ FIELD_NAMES) = True := eq_true ⟨hin, hfield⟩
  have hni : (ln = "item".data) = False :=
    eq_false (fun he => absurd (he ▸ hfield) (by decide))
  simp only [closeWithLocal, h1, if_true, hni, if_false]

theorem onClosetag_commit (s : ParserState) (name : Str)
    (hin : s.insideItem = true) (hfield : getLocalName name ∈ FIELD_NAMES) :
    onClosetag s name
      = (⟨setField s.currentProduct (getLocalName name) (jsTrim s.currentText),
          [], [], s.insideItem⟩, []) := by
  have he : onClosetag s name = closeWithLocal s (getLocalName name) := rfl
  rw [he, closeWithLocal_commit s (getLocalName name) hin hfield]

/-- C8: while a field tag is open inside an item, text and CDATA chunks
are handled identically and appended verbatim in arrival order to the
field accumulator, with no modification of the chunk contents; the
value committed at the field's closing tag is the accumulated text with
leading and trailing whitespace trimmed. -/
theorem field_chunks_verbatim (s : ParserState) (chunks : List (Bool × Str)) (name : Str)
    (hin : s.insideItem = true) (htag : s.currentTag ≠ [])
    (hfield : getLocalName name ∈ FIELD_NAMES) :
    (∀ (st : ParserState) (ch : Str), onCdata st ch = onText st ch) ∧
    (applyChunks s chunks).currentText
        = s.currentText ++ (chunks.map Prod.snd).flatten ∧
    fieldOf ((onClosetag (applyChunks s chunks) name).1.currentProduct) (getLocalName name)
      = some (jsTrim (s.currentText ++ (chunks.map Prod.snd).flatten)) := by
  have hstate := applyChunks_state s chunks hin htag
  refine ⟨fun st ch => rfl, by rw [hstate], ?_⟩
  rw [hstate, onClosetag_commit
    { s with currentText := s.currentText ++ (chunks.map Prod.snd).flatten }
    name hin hfield]
  exact fieldOf_setField s.currentProduct (getLocalName name)
    (jsTrim (s.currentText ++ (chunks.map Prod.snd).flatten)) hfield

theorem field_chunks_verbatim_witness :
    fieldOf ((onClosetag (applyChunks ⟨emptyPartial, "description".data, [], true⟩
          [(true, "<a> & b".data)]) "g:description".data).1.currentProduct)
        (getLocalName "g:description".data)
      = some (jsTrim (([] : Str) ++ ([(true, "<a> & b".data)].map Prod.snd).flatten)) ∧
    jsTrim (([] : Str) ++ ([(true, "<a> & b".data)].map Prod.snd).flatten)
      = "<a> & b".data :=
  ⟨(field_chunks_verbatim ⟨emptyPartial, "description".data, [], true⟩
      [(true, "<a> & b".data)] "g:description".data rfl (by decide) (by decide)).2.2,
   by decide⟩
